import Mathlib

/-!
Shallow embedding of `src/manifold_tag_bot.py` (Manifold Markets spread-closing
bot).  Python floats are modelled as exact rationals (`ℚ`); Python dicts of
timestamps as association lists; the two `time.time()` calls inside one
invocation of `maybe_place_orders` are modelled as a single instant `now`.
Environment-derived module constants (`MIN_SPREAD`, `SPREAD_TICK`, ...) are
gathered into a `Config` record whose `defaultConfig` holds the defaults from
the source.  Network calls are modelled by passing the data they would return
(`pages` of markets, a `bets` function per contract id); order submission is
modelled by returning the list of `place_bet` calls the code would make.
-/

/-- Value found under the `limitProb` key of a bet record: a JSON number
(`float`/`int` in Python, modelled as `ℚ`) or some non-numeric value.
`isinstance(limit_prob, (float, int))` holds exactly for `num`. -/
inductive LimitProbVal where
  | num (q : ℚ)
  | nonNum
deriving DecidableEq, Repr

/-- A bet record as consumed by `is_limit_order_open` / `extract_best_quotes`:
`isCancelled` is the truthiness of `bet.get("isCancelled")`, `isFilled` models
`bet.get("isFilled") is True`, `outcome` is `bet.get("outcome")` (absent or a
string), `limitProb` is `bet.get("limitProb")` (absent, numeric or not). -/
structure Bet where
  isCancelled : Bool
  isFilled : Bool
  outcome : Option String
  limitProb : Option LimitProbVal
deriving DecidableEq, Repr

/-- Embedding of `is_limit_order_open` (lines 135-140): open iff not
cancelled, not filled, and `limitProb` is set. -/
def is_limit_order_open (bet : Bet) : Bool :=
  if bet.isCancelled then false
  else if bet.isFilled then false
  else bet.limitProb.isSome

/-- Maximum of a list (`max(...)` in Python): `none` on the empty list. -/
def listMax : List ℚ → Option ℚ
  | [] => none
  | x :: xs => some (xs.foldl max x)

/-- Minimum of a list (`min(...)` in Python): `none` on the empty list. -/
def listMin : List ℚ → Option ℚ
  | [] => none
  | x :: xs => some (xs.foldl min x)

/-- Model of `isinstance(limit_prob, (float, int))` followed by
`float(limit_prob)` (lines 153-155): the numeric value, if any. -/
def numericProb : Option LimitProbVal → Option ℚ
  | some (.num q) => some q
  | _ => none

/-- The accumulation loop of `extract_best_quotes` (lines 146-159): walks the
bet list threading the `yes_bids` and `yes_asks` accumulators, mirroring the
source's chain of `continue` guards. -/
def extractLoop : List Bet → List ℚ → List ℚ → List ℚ × List ℚ
  | [], yes_bids, yes_asks => (yes_bids, yes_asks)
  | bet :: rest, yes_bids, yes_asks =>
    if ¬ is_limit_order_open bet then extractLoop rest yes_bids yes_asks
    else if ¬ (bet.outcome = some "YES" ∨ bet.outcome = some "NO") then
      extractLoop rest yes_bids yes_asks
    else
      match numericProb bet.limitProb with
      | none => extractLoop rest yes_bids yes_asks
      | some limit_prob =>
        if bet.outcome = some "YES" then
          extractLoop rest (yes_bids ++ [limit_prob]) yes_asks
        else
          extractLoop rest yes_bids (yes_asks ++ [1 - limit_prob])

/-- Embedding of `extract_best_quotes` (lines 143-162): collect YES-side
prices of open limit orders, return `(max yes_bids, min yes_asks)`, or `none`
when either accumulator is empty. -/
def extract_best_quotes (bets : List Bet) : Option (ℚ × ℚ) :=
  let acc := extractLoop bets [] []
  match listMax acc.1, listMin acc.2 with
  | some b, some a => some (b, a)
  | _, _ => none

/-- Embedding of `kelly_fraction` (lines 175-181). -/
def kelly_fraction (true_prob price_prob : ℚ) : ℚ :=
  if price_prob ≤ 0 ∨ 1 ≤ price_prob then 0
  else
    let edge := true_prob - price_prob
    if edge ≤ 0 then 0
    else min (edge / (1 - price_prob)) 1

/-- Embedding of `clamp` (lines 184-185): `max(min_value, min(value, max_value))`. -/
def clamp (value min_value max_value : ℚ) : ℚ :=
  max min_value (min value max_value)

/-- Environment-derived configuration constants of the module (lines 22-31). -/
structure Config where
  minSpread : ℚ
  spreadTick : ℚ
  minTrade : ℚ
  maxTrade : ℚ
  cooldownSeconds : ℚ
  maxMarketsPerLoop : ℕ
  dryRun : Bool
deriving DecidableEq, Repr

/-- The default values of the environment variables (lines 24-31):
`MIN_SPREAD=0.02`, `SPREAD_TICK=0.002`, `MIN_TRADE=1`, `MAX_TRADE=50`,
`COOLDOWN_SECONDS=600`, `MAX_MARKETS_PER_LOOP=100`, `DRY_RUN=false`. -/
def defaultConfig : Config :=
  { minSpread := 1/50
    spreadTick := 1/500
    minTrade := 1
    maxTrade := 50
    cooldownSeconds := 600
    maxMarketsPerLoop := 100
    dryRun := false }

/-- The `MarketQuote` dataclass (lines 34-40). -/
structure MarketQuote where
  contract_id : String
  question : String
  yes_bid : ℚ
  yes_ask : ℚ
  volume : ℚ
deriving DecidableEq, Repr

/-- The `BotState` dataclass (lines 43-45): `last_order_times` is a dict from
contract id to timestamp, modelled as an association list (lookup finds the
most recently written binding). -/
structure BotState where
  last_order_times : List (String × ℚ)
deriving DecidableEq, Repr

/-- Model of `state.last_order_times.get(cid, 0)` (line 234). -/
def lookupTime (state : BotState) (cid : String) : ℚ :=
  match state.last_order_times.lookup cid with
  | some t => t
  | none => 0

/-- Model of the dict write `state.last_order_times[cid] = t` (lines 261, 268). -/
def setTime (state : BotState) (cid : String) (t : ℚ) : BotState :=
  ⟨(cid, t) :: state.last_order_times⟩

/-- One `api.place_bet(contract_id, outcome, amount, limit_prob)` call
(lines 98-111): the four arguments of the POST payload. -/
structure BetOrder where
  contractId : String
  outcome : String
  amount : ℚ
  limitProb : ℚ
deriving DecidableEq, Repr

/-- Midpoint `mid = (bid + ask) / 2` (line 237). -/
def midOf (quote : MarketQuote) : ℚ :=
  (quote.yes_bid + quote.yes_ask) / 2

/-- The YES-leg price `clamp(mid + SPREAD_TICK, 0.01, 0.99)` (line 238). -/
def yesPriceOf (cfg : Config) (quote : MarketQuote) : ℚ :=
  clamp (midOf quote + cfg.spreadTick) (1/100) (99/100)

/-- The NO-leg price `clamp(1 - mid + SPREAD_TICK, 0.01, 0.99)` (line 239). -/
def noPriceOf (cfg : Config) (quote : MarketQuote) : ℚ :=
  clamp (1 - midOf quote + cfg.spreadTick) (1/100) (99/100)

/-- The YES-leg Kelly fraction `kelly_fraction(mid, yes_price)` (line 241). -/
def yesFractionOf (cfg : Config) (quote : MarketQuote) : ℚ :=
  kelly_fraction (midOf quote) (yesPriceOf cfg quote)

/-- The NO-leg Kelly fraction `kelly_fraction(1 - mid, no_price)` (line 242). -/
def noFractionOf (cfg : Config) (quote : MarketQuote) : ℚ :=
  kelly_fraction (1 - midOf quote) (noPriceOf cfg quote)

/-- Embedding of `maybe_place_orders` (lines 233-268).  Returns the list of
`place_bet` calls made (in order) together with the state after the call. -/
def maybe_place_orders (cfg : Config) (now : ℚ) (quote : MarketQuote)
    (bankroll : ℚ) (state : BotState) : List BetOrder × BotState :=
  let last_order_time := lookupTime state quote.contract_id
  if now - last_order_time < cfg.cooldownSeconds then ([], state)
  else
    let yes_price := yesPriceOf cfg quote
    let no_price := noPriceOf cfg quote
    let yes_fraction := yesFractionOf cfg quote
    let no_fraction := noFractionOf cfg quote
    let yes_amount := clamp (bankroll * yes_fraction) cfg.minTrade cfg.maxTrade
    let no_amount := clamp (bankroll * no_fraction) cfg.minTrade cfg.maxTrade
    if yes_fraction = 0 ∧ no_fraction = 0 then ([], state)
    else if cfg.dryRun then ([], setTime state quote.contract_id now)
    else
      ((if 0 < yes_fraction then
          [⟨quote.contract_id, "YES", yes_amount, yes_price⟩] else []) ++
       (if 0 < no_fraction then
          [⟨quote.contract_id, "NO", no_amount, 1 - no_price⟩] else []),
       setTime state quote.contract_id now)

/-- A market record as consumed by `choose_markets` (lines 195-204):
`isResolved`/`isClosed` are the truthiness of the corresponding keys,
`outcomeType` is `market.get("outcomeType")` (absent modelled as `""`),
`id` is `market.get("id")` with the falsy values (absent, empty string)
modelled as `""`, `question` defaults to `""`, `volume` to `0`, and
`createdTime` is `market.get("createdTime")`. -/
structure MarketRec where
  isResolved : Bool
  isClosed : Bool
  outcomeType : String
  id : String
  question : String
  volume : ℚ
  createdTime : Option Int
deriving DecidableEq, Repr

/-- The inner `for market in batch` loop of `choose_markets` (lines 195-225):
filters each record, appends a `MarketQuote` for survivors, and breaks once
the accumulated list reaches `MAX_MARKETS_PER_LOOP`. -/
def processBatch (cfg : Config) (bets : String → List Bet) :
    List MarketRec → List MarketQuote → List MarketQuote
  | [], markets => markets
  | market :: rest, markets =>
    if market.isResolved ∨ market.isClosed then processBatch cfg bets rest markets
    else if market.outcomeType ≠ "BINARY" then processBatch cfg bets rest markets
    else if market.id = "" then processBatch cfg bets rest markets
    else
      match extract_best_quotes (bets market.id) with
      | none => processBatch cfg bets rest markets
      | some (yes_bid, yes_ask) =>
        if yes_ask ≤ yes_bid then processBatch cfg bets rest markets
        else if yes_ask - yes_bid < cfg.minSpread then processBatch cfg bets rest markets
        else
          let markets' := markets ++
            [⟨market.id, market.question, yes_bid, yes_ask, market.volume⟩]
          if cfg.maxMarketsPerLoop ≤ markets'.length then markets'
          else processBatch cfg bets rest markets'

/-- The outer `while len(markets) < MAX_MARKETS_PER_LOOP` loop of
`choose_markets` (lines 191-228).  The successive responses of
`api.fetch_markets` are modelled by the list `pages`; an exhausted list
models the API returning an empty batch (the `if not batch: break` case).
After a batch is processed the loop stops when the last record of the batch
has no `createdTime` cursor. -/
def chooseMarketsLoop (cfg : Config) (bets : String → List Bet) :
    List (List MarketRec) → List MarketQuote → List MarketQuote
  | pages, markets =>
    if cfg.maxMarketsPerLoop ≤ markets.length then markets
    else
      match pages with
      | [] => markets
      | batch :: restPages =>
        if batch.isEmpty then markets
        else
          let markets' := processBatch cfg bets batch markets
          match batch.getLast? with
          | none => markets'
          | some lastMarket =>
            match lastMarket.createdTime with
            | none => markets'
            | some _ => chooseMarketsLoop cfg bets restPages markets'

/-- The sort key comparator realising
`markets.sort(key=lambda q: (spread, volume), reverse=True)` (line 229):
`quoteKeyGE a b` holds when `a`'s `(spread, volume)` pair is
lexicographically at least `b`'s. -/
def quoteKeyGE (a b : MarketQuote) : Bool :=
  decide (b.yes_ask - b.yes_bid < a.yes_ask - a.yes_bid ∨
    (a.yes_ask - a.yes_bid = b.yes_ask - b.yes_bid ∧ b.volume ≤ a.volume))

/-- Embedding of `choose_markets` (lines 188-230): accumulate candidates,
then sort descending by `(spread, volume)`. -/
def choose_markets (cfg : Config) (bets : String → List Bet)
    (pages : List (List MarketRec)) : List MarketQuote :=
  (chooseMarketsLoop cfg bets pages []).mergeSort quoteKeyGE

/-- A JSON value, for modelling what `json.load` can hand back. -/
inductive Json where
  | null
  | bool (b : Bool)
  | num (q : ℚ)
  | str (s : String)
  | arr (elems : List Json)
  | obj (fields : List (String × Json))

/-- What reading the state file can yield: the file is absent
(`os.path.exists` false), opening/reading raises `OSError`, `json.load`
raises `JSONDecodeError`, or parsing succeeds with a JSON document. -/
inductive FileRead where
  | absent
  | unreadable
  | invalidJson
  | parsed (j : Json)

/-- A Python exception escaping `load_state`. -/
inductive PyError where
  | attributeError
deriving DecidableEq, Repr

/-- Embedding of `load_state` (lines 114-126), with fallibility made
explicit.  The recovery branches return the empty mapping; on a successfully
parsed document the code runs `data.get("last_order_times", {})`, which in
Python raises `AttributeError` when `data` is not a dict — that raise is not
caught (only `OSError` and `JSONDecodeError` are), so it escapes.  The
returned mapping is kept as raw JSON fields, as the code does not validate
the values. -/
def load_state (f : FileRead) : Except PyError (List (String × Json)) :=
  match f with
  | .absent => .ok []
  | .unreadable => .ok []
  | .invalidJson => .ok []
  | .parsed data =>
    match data with
    | .obj fields =>
      let last_order_times := (fields.lookup "last_order_times").getD (.obj [])
      match last_order_times with
      | .obj entries => .ok entries
      | _ => .ok []
    | _ => .error .attributeError

/-- Repeated invocations of `maybe_place_orders` on the same market within
one run: one call per timestamp in `times`, threading the state, collecting
every order submitted. -/
def run_calls (cfg : Config) (quote : MarketQuote) (bankroll : ℚ) :
    List ℚ → BotState → List BetOrder × BotState
  | [], state => ([], state)
  | now :: rest, state =>
    let step := maybe_place_orders cfg now quote bankroll state
    let restRun := run_calls cfg quote bankroll rest step.2
    (step.1 ++ restRun.1, restRun.2)

/-! ## C2: spec-side description of the quote extractor -/

/-- Spec-side bid prices, following the claim's words: an order counts when
cancelled is false, filled is not true, the limit probability is set, the
outcome is YES and the limit probability is numeric; it contributes the limit
probability itself to the bid side. -/
def specBidPrices (bets : List Bet) : List ℚ :=
  bets.filterMap fun bet =>
    if bet.isCancelled = false ∧ bet.isFilled ≠ true ∧ bet.limitProb.isSome ∧
        bet.outcome = some "YES" then numericProb bet.limitProb
    else none

/-- Spec-side ask prices, following the claim's words: an open NO limit order
with numeric limit probability contributes `1 −` that probability to the ask
side. -/
def specAskPrices (bets : List Bet) : List ℚ :=
  bets.filterMap fun bet =>
    if bet.isCancelled = false ∧ bet.isFilled ≠ true ∧ bet.limitProb.isSome ∧
        bet.outcome = some "NO" then
      (numericProb bet.limitProb).map fun q => 1 - q
    else none

/-- The conditions a surviving candidate of `choose_markets` satisfies,
relative to the market record it came from: not resolved, not closed, binary,
with an identifier, and a quote with a positive spread of at least
`MIN_SPREAD`. -/
def goodCandidate (cfg : Config) (bets : String → List Bet)
    (m : MarketRec) (q : MarketQuote) : Prop :=
  m.isResolved = false ∧ m.isClosed = false ∧ m.outcomeType = "BINARY" ∧
  m.id ≠ "" ∧ extract_best_quotes (bets m.id) = some (q.yes_bid, q.yes_ask) ∧
  q.yes_bid < q.yes_ask ∧ cfg.minSpread ≤ q.yes_ask - q.yes_bid ∧
  q.contract_id = m.id ∧ q.question = m.question ∧ q.volume = m.volume

/-! ## General lemmas about the embedded operations -/

theorem is_limit_order_open_iff (bet : Bet) :
    is_limit_order_open bet = true ↔
      bet.isCancelled = false ∧ bet.isFilled = false ∧ bet.limitProb.isSome := by
  rcases bet with ⟨c, f, o, lp⟩
  cases c <;> cases f <;> simp [is_limit_order_open]

theorem clamp_bounds (value lo hi : ℚ) (h : lo ≤ hi) :
    lo ≤ clamp value lo hi ∧ clamp value lo hi ≤ hi := by
  constructor
  · exact le_max_left _ _
  · exact max_le h (min_le_right _ _)

theorem kelly_fraction_le_one (true_prob price_prob : ℚ) :
    kelly_fraction true_prob price_prob ≤ 1 := by
  simp only [kelly_fraction]
  split_ifs
  · norm_num
  · norm_num
  · exact min_le_right _ _

theorem kelly_fraction_nonneg (true_prob price_prob : ℚ) :
    0 ≤ kelly_fraction true_prob price_prob := by
  simp only [kelly_fraction]
  split_ifs with h h'
  · norm_num
  · norm_num
  · push_neg at h h'
    exact le_min (le_of_lt (div_pos (by linarith) (by linarith))) (by norm_num)

theorem kelly_fraction_zero_of_no_edge (true_prob price_prob : ℚ)
    (h0 : 0 < price_prob) (h1 : price_prob < 1) (hle : true_prob ≤ price_prob) :
    kelly_fraction true_prob price_prob = 0 := by
  rw [kelly_fraction, if_neg (by push_neg; constructor <;> linarith),
    if_pos (by linarith)]

theorem kelly_fraction_eq_ratio (true_prob price_prob : ℚ)
    (h0 : 0 < price_prob) (h1 : price_prob < 1) (hlt : price_prob < true_prob)
    (hle : true_prob ≤ 1) :
    kelly_fraction true_prob price_prob =
      (true_prob - price_prob) / (1 - price_prob) := by
  rw [kelly_fraction, if_neg (by push_neg; constructor <;> linarith),
    if_neg (by simp only [not_le]; linarith)]
  exact min_eq_left ((div_le_one (by linarith)).mpr (by linarith))

/-! ## C3 -/

/-- C3: `kelly_fraction` returns 0 when `price_prob ≤ 0` or `price_prob ≥ 1`,
returns 0 when the edge `true_prob − price_prob` is ≤ 0, and otherwise
returns `min(edge / (1 − price_prob), 1.0)`. -/
theorem kelly_fraction_formula (true_prob price_prob : ℚ) :
    kelly_fraction true_prob price_prob =
      if price_prob ≤ 0 ∨ 1 ≤ price_prob then 0
      else if true_prob - price_prob ≤ 0 then 0
      else min ((true_prob - price_prob) / (1 - price_prob)) 1 := rfl

/-! ## C4 -/

/-- C4 counterexample: with `price_prob = 1/2` strictly inside `(0,1)` and
`1/2 < 2 < 3`, the Kelly fraction is not strictly increasing in the edge:
both `kelly_fraction 2 (1/2)` and `kelly_fraction 3 (1/2)` are capped at 1. -/
theorem kelly_fraction_strict_mono_cex :
    0 < (1:ℚ)/2 ∧ (1:ℚ)/2 < 1 ∧ (1:ℚ)/2 < 2 ∧ (2:ℚ) < 3 ∧
      kelly_fraction 2 (1/2) = 1 ∧ kelly_fraction 3 (1/2) = 1 ∧
      ¬ kelly_fraction 2 (1/2) < kelly_fraction 3 (1/2) := by
  norm_num [kelly_fraction]

/-- C4 (amended): for `price_prob` strictly in `(0,1)`, the Kelly fraction is
0 whenever `p ≤ price_prob`; it is strictly increasing in the edge on the
range where the `min(..., 1.0)` cap does not bind, i.e. for
`price_prob < p < p' ≤ 1`; and for all inputs the result is ≤ 1. -/
theorem kelly_fraction_shape :
    (∀ price_prob p : ℚ, 0 < price_prob → price_prob < 1 → p ≤ price_prob →
      kelly_fraction p price_prob = 0) ∧
    (∀ price_prob p p' : ℚ, 0 < price_prob → price_prob < 1 →
      price_prob < p → p < p' → p' ≤ 1 →
      kelly_fraction p price_prob < kelly_fraction p' price_prob) ∧
    (∀ true_prob price_prob : ℚ, kelly_fraction true_prob price_prob ≤ 1) := by
  refine ⟨fun pp p h0 h1 hle => kelly_fraction_zero_of_no_edge p pp h0 h1 hle,
    fun pp p p' h0 h1 hp hpp' hp'1 => ?_,
    fun t pp => kelly_fraction_le_one t pp⟩
  rw [kelly_fraction_eq_ratio p pp h0 h1 hp (by linarith),
    kelly_fraction_eq_ratio p' pp h0 h1 (by linarith) hp'1]
  rw [div_lt_div_iff₀ (by linarith) (by linarith)]
  nlinarith

/-- C4 witness: the amended statement applied at `price_prob = 1/2`,
`p = 3/4`, `p' = 1`. -/
theorem kelly_fraction_shape_witness :
    kelly_fraction (3/4) (1/2) < kelly_fraction 1 (1/2) :=
  kelly_fraction_shape.2.1 (1/2) (3/4) 1 (by norm_num) (by norm_num)
    (by norm_num) (by norm_num) (by norm_num)

/-! ## C1 -/

/-- C1 counterexample: on the quote `(yes_bid, yes_ask) = (0, 0.018)` the NO
leg fires (its Kelly fraction is positive because clamping pulls `no_price`
down to 0.99), and the `place_bet` call carries `limitProb = 0.01`, which is
`1 − no_price`, not the computed `no_price = 0.99`. -/
theorem no_leg_limit_prob_cex :
    (maybe_place_orders defaultConfig 1000 ⟨"m1", "q", 0, 9/500, 0⟩ 100 ⟨[]⟩).1 =
      [⟨"m1", "NO", 10, 1/100⟩] ∧
    noPriceOf defaultConfig ⟨"m1", "q", 0, 9/500, 0⟩ = 99/100 ∧
    ¬ ((1:ℚ)/100 = 99/100) := by
  refine ⟨?_, ?_, by norm_num⟩ <;> with_unfolding_all decide

/-- C1 (amended): every NO-leg order submitted by `maybe_place_orders`
carries `1 − no_price` as its API-facing `limitProb`, the complement of the
computed NO-leg price, not `no_price` itself. -/
theorem no_leg_limit_prob (cfg : Config) (now : ℚ) (quote : MarketQuote)
    (bankroll : ℚ) (state : BotState) :
    ∀ o ∈ (maybe_place_orders cfg now quote bankroll state).1,
      o.outcome = "NO" → o.limitProb = 1 - noPriceOf cfg quote := by
  intro o ho hno
  simp only [maybe_place_orders] at ho
  split_ifs at ho <;> simp_all [List.mem_append]
  rcases ho with ho | ho <;> simp_all

/-- C1 witness: the amended statement applied to the counterexample quote's
emitted NO order. -/
theorem no_leg_limit_prob_witness :
    BetOrder.limitProb ⟨"m1", "NO", 10, 1/100⟩ =
      1 - noPriceOf defaultConfig ⟨"m1", "q", 0, 9/500, 0⟩ :=
  no_leg_limit_prob defaultConfig 1000 ⟨"m1", "q", 0, 9/500, 0⟩ 100 ⟨[]⟩
    ⟨"m1", "NO", 10, 1/100⟩ (by with_unfolding_all decide) rfl

/-! ## C7 -/

/-- C7: with the default configuration, a market whose open orders are a YES
limit order at 0.40 and a NO limit order at 0.50 yields the quote
`(bid, ask) = (0.40, 0.50)`, passes the scanner's spread filter, has
`mid = 0.45`, `yes_price = 0.452`, `no_price = 0.552`, both Kelly fractions
`kelly_fraction 0.45 0.452` and `kelly_fraction 0.55 0.552` are 0, and
`maybe_place_orders` submits no orders and leaves the state unchanged. -/
theorem scenario_b :
    extract_best_quotes
        [⟨false, false, some "YES", some (.num (2/5))⟩,
         ⟨false, false, some "NO", some (.num (1/2))⟩] = some (2/5, 1/2) ∧
    choose_markets defaultConfig
        (fun _ =>
          [⟨false, false, some "YES", some (.num (2/5))⟩,
           ⟨false, false, some "NO", some (.num (1/2))⟩])
        [[⟨false, false, "BINARY", "m1", "q", 0, some 5⟩]] =
      [⟨"m1", "q", 2/5, 1/2, 0⟩] ∧
    midOf ⟨"m1", "q", 2/5, 1/2, 0⟩ = 9/20 ∧
    yesPriceOf defaultConfig ⟨"m1", "q", 2/5, 1/2, 0⟩ = 113/250 ∧
    noPriceOf defaultConfig ⟨"m1", "q", 2/5, 1/2, 0⟩ = 69/125 ∧
    (113:ℚ)/250 = 452/1000 ∧ (69:ℚ)/125 = 552/1000 ∧
    kelly_fraction (9/20) (113/250) = 0 ∧
    kelly_fraction (11/20) (69/125) = 0 ∧
    maybe_place_orders defaultConfig 1000 ⟨"m1", "q", 2/5, 1/2, 0⟩ 100 ⟨[]⟩ =
      ([], ⟨[]⟩) := by
  refine ⟨?_, ?_, ?_, ?_, ?_, by norm_num, by norm_num, ?_, ?_, ?_⟩ <;>
    with_unfolding_all decide

/-! ## C9 -/

/-- C9 (code bug): `load_state` recovers with the empty mapping when the
state file is absent, unreadable, or not valid JSON, and when the
`last_order_times` entry of a JSON object is not a mapping — but when the
file parses to valid JSON whose top level is not an object (for example the
JSON document `[]`), `data.get(...)` raises `AttributeError`, which the
`except (OSError, json.JSONDecodeError)` clause does not catch, so the call
raises instead of returning the empty state. -/
theorem load_state_raises_on_non_object_json :
    load_state .absent = .ok [] ∧
    load_state .unreadable = .ok [] ∧
    load_state .invalidJson = .ok [] ∧
    load_state (.parsed (.obj [("last_order_times", .num 3)])) = .ok [] ∧
    load_state (.parsed (.obj [])) = .ok [] ∧
    load_state (.parsed (.arr [])) = .error .attributeError ∧
    load_state (.parsed .null) = .error .attributeError := by
  refine ⟨rfl, rfl, rfl, rfl, rfl, rfl, rfl⟩

/-! ## Characterisation of the orders submitted by one call -/

theorem mem_orders_iff (cfg : Config) (now : ℚ) (quote : MarketQuote)
    (bankroll : ℚ) (state : BotState) (o : BetOrder) :
    o ∈ (maybe_place_orders cfg now quote bankroll state).1 ↔
      ¬ now - lookupTime state quote.contract_id < cfg.cooldownSeconds ∧
      cfg.dryRun = false ∧
      ((0 < yesFractionOf cfg quote ∧
        o = ⟨quote.contract_id, "YES",
              clamp (bankroll * yesFractionOf cfg quote) cfg.minTrade cfg.maxTrade,
              yesPriceOf cfg quote⟩) ∨
       (0 < noFractionOf cfg quote ∧
        o = ⟨quote.contract_id, "NO",
              clamp (bankroll * noFractionOf cfg quote) cfg.minTrade cfg.maxTrade,
              1 - noPriceOf cfg quote⟩)) := by
  simp only [maybe_place_orders]
  split_ifs with hc hz hd hy hn hn
  · simp [hc]
  · have hy0 : ¬ 0 < yesFractionOf cfg quote := by rw [hz.1]; exact lt_irrefl 0
    have hn0 : ¬ 0 < noFractionOf cfg quote := by rw [hz.2]; exact lt_irrefl 0
    simp [hy0, hn0]
  · simp [hd]
  all_goals simp_all [List.mem_append]

/-! ## C10 -/

/-- C10: assuming `MIN_TRADE ≤ MAX_TRADE`, every order actually submitted by
`maybe_place_orders` has an amount in `[MIN_TRADE, MAX_TRADE]`, and a leg is
only ever submitted when its Kelly fraction is strictly positive (so
zero-fraction legs are never submitted, and a positive-fraction leg stakes at
least `MIN_TRADE` even when `fraction × bankroll` is smaller). -/
theorem submitted_amounts_bounded (cfg : Config) (now : ℚ) (quote : MarketQuote)
    (bankroll : ℚ) (state : BotState) (hmt : cfg.minTrade ≤ cfg.maxTrade) :
    ∀ o ∈ (maybe_place_orders cfg now quote bankroll state).1,
      (cfg.minTrade ≤ o.amount ∧ o.amount ≤ cfg.maxTrade) ∧
      (o.outcome = "YES" → 0 < yesFractionOf cfg quote) ∧
      (o.outcome = "NO" → 0 < noFractionOf cfg quote) := by
  intro o ho
  rw [mem_orders_iff] at ho
  rcases ho.2.2 with ⟨hy, rfl⟩ | ⟨hn, rfl⟩
  · exact ⟨clamp_bounds _ _ _ hmt, fun _ => hy, by intro h; simp at h⟩
  · exact ⟨clamp_bounds _ _ _ hmt, by intro h; simp at h, fun _ => hn⟩

/-- C10 witness: on the quote `(0, 0.018)` the NO leg has fraction `1/10`;
`bankroll × fraction = 10` lies inside the default bounds `[1, 50]`. -/
theorem submitted_amounts_bounded_witness :
    defaultConfig.minTrade ≤ (10:ℚ) ∧ (10:ℚ) ≤ defaultConfig.maxTrade :=
  (submitted_amounts_bounded defaultConfig 1000 ⟨"m1", "q", 0, 9/500, 0⟩ 100
    ⟨[]⟩ (by norm_num [defaultConfig]) ⟨"m1", "NO", 10, 1/100⟩
    (by with_unfolding_all decide)).1

/-! ## State-lookup lemmas -/

theorem lookupTime_setTime_self (state : BotState) (cid : String) (t : ℚ) :
    lookupTime (setTime state cid t) cid = t := by
  simp [lookupTime, setTime, List.lookup]

theorem lookupTime_setTime_other (state : BotState) (cid cid' : String)
    (t : ℚ) (h : cid' ≠ cid) :
    lookupTime (setTime state cid t) cid' = lookupTime state cid' := by
  have hbeq : (cid' == cid) = false := beq_eq_false_iff_ne.mpr h
  simp [lookupTime, setTime, List.lookup, hbeq]

theorem yesFractionOf_dryRun (cfg : Config) (b : Bool) (quote : MarketQuote) :
    yesFractionOf { cfg with dryRun := b } quote = yesFractionOf cfg quote := rfl

theorem noFractionOf_dryRun (cfg : Config) (b : Bool) (quote : MarketQuote) :
    noFractionOf { cfg with dryRun := b } quote = noFractionOf cfg quote := rfl

/-! ## C8 -/

/-- C8: in dry-run mode, a candidate that passes the cooldown check and has
at least one nonzero Kelly fraction produces no `place_bet` call, yet the
state still records `last_order_times[contract_id] = now` exactly as live
mode would, and no other contract's recorded time changes. -/
theorem dry_run_records_time (cfg : Config) (now : ℚ) (quote : MarketQuote)
    (bankroll : ℚ) (state : BotState)
    (hdry : cfg.dryRun = true)
    (hcool : ¬ now - lookupTime state quote.contract_id < cfg.cooldownSeconds)
    (hfrac : ¬ (yesFractionOf cfg quote = 0 ∧ noFractionOf cfg quote = 0)) :
    (maybe_place_orders cfg now quote bankroll state).1 = [] ∧
    (maybe_place_orders cfg now quote bankroll state).2 =
      setTime state quote.contract_id now ∧
    lookupTime (maybe_place_orders cfg now quote bankroll state).2
      quote.contract_id = now ∧
    (∀ cid, cid ≠ quote.contract_id →
      lookupTime (maybe_place_orders cfg now quote bankroll state).2 cid =
        lookupTime state cid) ∧
    (maybe_place_orders cfg now quote bankroll state).2 =
      (maybe_place_orders { cfg with dryRun := false } now quote bankroll
        state).2 := by
  have hdr : maybe_place_orders cfg now quote bankroll state =
      ([], setTime state quote.contract_id now) := by
    simp only [maybe_place_orders]
    rw [if_neg hcool, if_neg hfrac, if_pos hdry]
  have hlive : (maybe_place_orders { cfg with dryRun := false } now quote
      bankroll state).2 = setTime state quote.contract_id now := by
    simp only [maybe_place_orders, yesFractionOf_dryRun, noFractionOf_dryRun]
    rw [if_neg hcool, if_neg hfrac]
    simp only [Bool.false_eq_true, if_false]
  rw [hdr, hlive]
  exact ⟨rfl, rfl, lookupTime_setTime_self state quote.contract_id now,
    fun cid hcid => lookupTime_setTime_other state quote.contract_id cid now
      hcid, rfl⟩

/-- C8 witness: with dry-run switched on in the default configuration, the
quote `(0, 0.018)` (NO-leg fraction `1/10`) at time 1000 from the empty state
records timestamp 1000 for the contract. -/
theorem dry_run_records_time_witness :
    lookupTime (maybe_place_orders ⟨1/50, 1/500, 1, 50, 600, 100, true⟩ 1000
      ⟨"m1", "q", 0, 9/500, 0⟩ 100 ⟨[]⟩).2 "m1" = 1000 :=
  (dry_run_records_time ⟨1/50, 1/500, 1, 50, 600, 100, true⟩ 1000
    ⟨"m1", "q", 0, 9/500, 0⟩ 100 ⟨[]⟩ rfl (by with_unfolding_all decide)
    (by with_unfolding_all decide)).2.2.1

/-! ## C5 -/

/-- C5: however many times a market reappears in scan results, while every
call time stays within `COOLDOWN_SECONDS` of the recorded `last_order_time`
of its contract, `maybe_place_orders` submits no order and leaves the state
untouched — so a market inside its cooldown window never receives another
order. -/
theorem cooldown_blocks_repeat_orders (cfg : Config) (quote : MarketQuote)
    (bankroll : ℚ) (times : List ℚ) (state : BotState)
    (h : ∀ t ∈ times,
      t - lookupTime state quote.contract_id < cfg.cooldownSeconds) :
    run_calls cfg quote bankroll times state = ([], state) := by
  induction times with
  | nil => rfl
  | cons t ts ih =>
    have hstep : maybe_place_orders cfg t quote bankroll state =
        ([], state) := by
      simp only [maybe_place_orders]
      rw [if_pos (h t (List.mem_cons_self t ts))]
    have hrest := ih fun t' ht' => h t' (List.mem_cons_of_mem _ ht')
    simp [run_calls, hstep, hrest]

/-- C5 witness: with the contract's last order recorded at time 900 and the
default 600-second cooldown, three repeated appearances at times 1000, 1100
and 1400 all produce no order and leave the state unchanged. -/
theorem cooldown_blocks_repeat_orders_witness :
    run_calls defaultConfig ⟨"m1", "q", 2/5, 1/2, 0⟩ 100 [1000, 1100, 1400]
      ⟨[("m1", 900)]⟩ = ([], ⟨[("m1", 900)]⟩) :=
  cooldown_blocks_repeat_orders defaultConfig ⟨"m1", "q", 2/5, 1/2, 0⟩ 100
    [1000, 1100, 1400] ⟨[("m1", 900)]⟩ (by with_unfolding_all decide)

theorem extractLoop_spec (bets : List Bet) : ∀ yes_bids yes_asks : List ℚ,
    extractLoop bets yes_bids yes_asks =
      (yes_bids ++ specBidPrices bets, yes_asks ++ specAskPrices bets) := by
  induction bets with
  | nil => intro bids asks; simp [extractLoop, specBidPrices, specAskPrices]
  | cons bet rest ih =>
    intro bids asks
    rcases bet with ⟨c, f, o, lp⟩
    cases c
    case true =>
      simp [extractLoop, is_limit_order_open, specBidPrices, specAskPrices,
        List.filterMap_cons, ih]
    case false =>
      cases f
      case true =>
        simp [extractLoop, is_limit_order_open, specBidPrices, specAskPrices,
          List.filterMap_cons, ih]
      case false =>
        rcases lp with _ | v
        · simp [extractLoop, is_limit_order_open, specBidPrices,
            specAskPrices, List.filterMap_cons, ih]
        · by_cases hyes : o = some "YES"
          · subst hyes
            cases v <;>
              simp [extractLoop, is_limit_order_open, numericProb,
                specBidPrices, specAskPrices, List.filterMap_cons, ih]
          · by_cases hno : o = some "NO"
            · subst hno
              cases v <;>
                simp [extractLoop, is_limit_order_open, numericProb,
                  specBidPrices, specAskPrices, List.filterMap_cons, ih]
            · simp [extractLoop, is_limit_order_open, numericProb,
                specBidPrices, specAskPrices, List.filterMap_cons, ih,
                hyes, hno]

theorem foldl_max_mem (xs : List ℚ) : ∀ x : ℚ, xs.foldl max x ∈ x :: xs := by
  induction xs with
  | nil => intro x; simp
  | cons y ys ih =>
    intro x
    have h := ih (max x y)
    simp only [List.foldl_cons, List.mem_cons]
    rcases List.mem_cons.mp h with h | h
    · rcases max_choice x y with hm | hm
      · exact Or.inl (h.trans hm)
      · exact Or.inr (Or.inl (h.trans hm))
    · exact Or.inr (Or.inr h)

theorem foldl_max_ge (xs : List ℚ) :
    ∀ x a : ℚ, a ∈ x :: xs → a ≤ xs.foldl max x := by
  induction xs with
  | nil => intro x a ha; simp at ha; simp [ha]
  | cons y ys ih =>
    intro x a ha
    rcases List.mem_cons.mp ha with rfl | ha
    · exact le_trans (le_max_left a y) (ih (max a y) _ (List.mem_cons_self _ _))
    · rcases List.mem_cons.mp ha with rfl | ha
      · exact le_trans (le_max_right x a)
          (ih (max x a) _ (List.mem_cons_self _ _))
      · exact ih (max x y) a (List.mem_cons_of_mem _ ha)

theorem foldl_min_mem (xs : List ℚ) : ∀ x : ℚ, xs.foldl min x ∈ x :: xs := by
  induction xs with
  | nil => intro x; simp
  | cons y ys ih =>
    intro x
    have h := ih (min x y)
    simp only [List.foldl_cons, List.mem_cons]
    rcases List.mem_cons.mp h with h | h
    · rcases min_choice x y with hm | hm
      · exact Or.inl (h.trans hm)
      · exact Or.inr (Or.inl (h.trans hm))
    · exact Or.inr (Or.inr h)

theorem foldl_min_le (xs : List ℚ) :
    ∀ x a : ℚ, a ∈ x :: xs → xs.foldl min x ≤ a := by
  induction xs with
  | nil => intro x a ha; simp at ha; simp [ha]
  | cons y ys ih =>
    intro x a ha
    rcases List.mem_cons.mp ha with rfl | ha
    · exact le_trans (ih (min a y) _ (List.mem_cons_self _ _))
        (min_le_left a y)
    · rcases List.mem_cons.mp ha with rfl | ha
      · exact le_trans (ih (min x a) _ (List.mem_cons_self _ _))
          (min_le_right x a)
      · exact ih (min x y) a (List.mem_cons_of_mem _ ha)

/-! ## C2 -/

/-- C2: `extract_best_quotes` considers exactly the open limit orders
(cancelled false, filled not true, limit probability set, outcome YES or NO,
numeric limit probability); YES orders contribute their limit probability to
the bid side, NO orders contribute `1 −` it to the ask side; the result is
`none` exactly when one of the two sides is empty, and otherwise is the pair
(maximum of the bid prices, minimum of the ask prices). -/
theorem extract_best_quotes_correct (bets : List Bet) :
    (extract_best_quotes bets = none ↔
      specBidPrices bets = [] ∨ specAskPrices bets = []) ∧
    (∀ b a, extract_best_quotes bets = some (b, a) →
      (b ∈ specBidPrices bets ∧ ∀ x ∈ specBidPrices bets, x ≤ b) ∧
      (a ∈ specAskPrices bets ∧ ∀ x ∈ specAskPrices bets, a ≤ x)) := by
  have hacc : extractLoop bets [] [] =
      (specBidPrices bets, specAskPrices bets) := by
    simpa using extractLoop_spec bets [] []
  simp only [extract_best_quotes, hacc]
  rcases hb : specBidPrices bets with _ | ⟨x, xs⟩ <;>
    rcases ha : specAskPrices bets with _ | ⟨y, ys⟩
  · simp [listMax, listMin]
  · simp [listMax, listMin]
  · simp [listMax, listMin]
  · constructor
    · simp [listMax, listMin]
    · intro b a heq
      simp only [listMax, listMin, Option.some.injEq, Prod.mk.injEq] at heq
      obtain ⟨hbx, hay⟩ := heq
      subst hbx; subst hay
      exact ⟨⟨foldl_max_mem xs x, fun z hz => foldl_max_ge xs x z hz⟩,
        ⟨foldl_min_mem ys y, fun z hz => foldl_min_le ys y z hz⟩⟩

/-- C2 witness: on the two-order book of scenario B the extractor returns
`(0.4, 0.5)`, and the theorem places `0.4` among (and above) the spec-side
bid prices. -/
theorem extract_best_quotes_correct_witness :
    (2:ℚ)/5 ∈ specBidPrices
      [⟨false, false, some "YES", some (.num (2/5))⟩,
       ⟨false, false, some "NO", some (.num (1/2))⟩] :=
  (((extract_best_quotes_correct
      [⟨false, false, some "YES", some (.num (2/5))⟩,
       ⟨false, false, some "NO", some (.num (1/2))⟩]).2 (2/5) (1/2)
    (by with_unfolding_all decide)).1).1

theorem processBatch_mem (cfg : Config) (bets : String → List Bet) :
    ∀ (batch : List MarketRec) (acc : List MarketQuote) (q : MarketQuote),
      q ∈ processBatch cfg bets batch acc →
      q ∈ acc ∨ ∃ m ∈ batch, goodCandidate cfg bets m q := by
  intro batch
  induction batch with
  | nil =>
    intro acc q h
    simp only [processBatch] at h
    exact Or.inl h
  | cons market rest ih =>
    intro acc q h
    have step : ∀ acc', q ∈ processBatch cfg bets rest acc' →
        q ∈ acc' ∨ ∃ m ∈ market :: rest, goodCandidate cfg bets m q := by
      intro acc' h'
      rcases ih acc' q h' with h'' | ⟨m, hm, hg⟩
      · exact Or.inl h''
      · exact Or.inr ⟨m, List.mem_cons_of_mem _ hm, hg⟩
    rw [processBatch] at h
    by_cases h1 : market.isResolved = true ∨ market.isClosed = true
    · rw [if_pos h1] at h
      exact step acc h
    rw [if_neg h1] at h
    by_cases h2 : market.outcomeType ≠ "BINARY"
    · rw [if_pos h2] at h
      exact step acc h
    rw [if_neg h2] at h
    by_cases h3 : market.id = ""
    · rw [if_pos h3] at h
      exact step acc h
    rw [if_neg h3] at h
    rcases heq : extract_best_quotes (bets market.id) with _ | ⟨yes_bid, yes_ask⟩
    · simp only [heq] at h
      exact step acc h
    simp only [heq] at h
    by_cases h4 : yes_ask ≤ yes_bid
    · rw [if_pos h4] at h
      exact step acc h
    rw [if_neg h4] at h
    by_cases h5 : yes_ask - yes_bid < cfg.minSpread
    · rw [if_pos h5] at h
      exact step acc h
    rw [if_neg h5] at h
    simp only [not_or, Bool.not_eq_true] at h1
    have hgoodm : goodCandidate cfg bets market
        ⟨market.id, market.question, yes_bid, yes_ask, market.volume⟩ :=
      ⟨h1.1, h1.2, not_not.mp h2, h3, heq, not_le.mp h4, not_lt.mp h5,
        rfl, rfl, rfl⟩
    have hmem : q ∈ acc ++ [(⟨market.id, market.question, yes_bid,
        yes_ask, market.volume⟩ : MarketQuote)] →
        q ∈ acc ∨ ∃ m ∈ market :: rest, goodCandidate cfg bets m q := by
      intro hq
      rcases List.mem_append.mp hq with h' | h'
      · exact Or.inl h'
      · rw [List.mem_singleton] at h'
        subst h'
        exact Or.inr ⟨market, List.mem_cons_self _ _, hgoodm⟩
    by_cases h6 : cfg.maxMarketsPerLoop ≤ (acc ++ [(⟨market.id,
        market.question, yes_bid, yes_ask, market.volume⟩ :
          MarketQuote)]).length
    · rw [if_pos h6] at h
      exact hmem h
    · rw [if_neg h6] at h
      rcases step _ h with h' | hg
      · exact hmem h'
      · exact Or.inr hg

theorem processBatch_length (cfg : Config) (bets : String → List Bet) :
    ∀ (batch : List MarketRec) (acc : List MarketQuote),
      acc.length < cfg.maxMarketsPerLoop →
      (processBatch cfg bets batch acc).length ≤ cfg.maxMarketsPerLoop := by
  intro batch
  induction batch with
  | nil =>
    intro acc hacc
    simp only [processBatch]
    exact le_of_lt hacc
  | cons market rest ih =>
    intro acc hacc
    rw [processBatch]
    by_cases h1 : market.isResolved = true ∨ market.isClosed = true
    · rw [if_pos h1]
      exact ih acc hacc
    rw [if_neg h1]
    by_cases h2 : market.outcomeType ≠ "BINARY"
    · rw [if_pos h2]
      exact ih acc hacc
    rw [if_neg h2]
    by_cases h3 : market.id = ""
    · rw [if_pos h3]
      exact ih acc hacc
    rw [if_neg h3]
    rcases heq : extract_best_quotes (bets market.id) with _ | ⟨yes_bid, yes_ask⟩
    · simp only [heq]
      exact ih acc hacc
    simp only [heq]
    by_cases h4 : yes_ask ≤ yes_bid
    · rw [if_pos h4]
      exact ih acc hacc
    rw [if_neg h4]
    by_cases h5 : yes_ask - yes_bid < cfg.minSpread
    · rw [if_pos h5]
      exact ih acc hacc
    rw [if_neg h5]
    by_cases h6 : cfg.maxMarketsPerLoop ≤ (acc ++ [(⟨market.id,
        market.question, yes_bid, yes_ask, market.volume⟩ :
          MarketQuote)]).length
    · rw [if_pos h6]
      simp only [List.length_append, List.length_singleton]
      omega
    · rw [if_neg h6]
      exact ih _ (not_le.mp h6)

theorem chooseMarketsLoop_mem (cfg : Config) (bets : String → List Bet) :
    ∀ (pages : List (List MarketRec)) (acc : List MarketQuote)
      (q : MarketQuote), q ∈ chooseMarketsLoop cfg bets pages acc →
      q ∈ acc ∨ ∃ m ∈ pages.flatten, goodCandidate cfg bets m q := by
  intro pages
  induction pages with
  | nil =>
    intro acc q h
    rw [chooseMarketsLoop] at h
    by_cases hcap : cfg.maxMarketsPerLoop ≤ acc.length
    · rw [if_pos hcap] at h
      exact Or.inl h
    · rw [if_neg hcap] at h
      exact Or.inl h
  | cons batch restPages ih =>
    intro acc q h
    have memL : ∀ m, m ∈ batch → m ∈ (batch :: restPages).flatten :=
      fun m hm => List.mem_flatten.mpr ⟨batch, List.mem_cons_self _ _, hm⟩
    have memR : ∀ m, m ∈ restPages.flatten →
        m ∈ (batch :: restPages).flatten := by
      intro m hm
      rcases List.mem_flatten.mp hm with ⟨l, hl, hml⟩
      exact List.mem_flatten.mpr ⟨l, List.mem_cons_of_mem _ hl, hml⟩
    have handlePB : ∀ acc', q ∈ processBatch cfg bets batch acc' →
        q ∈ acc' ∨ ∃ m ∈ (batch :: restPages).flatten,
          goodCandidate cfg bets m q := by
      intro acc' h'
      rcases processBatch_mem cfg bets batch acc' q h' with h'' | ⟨m, hm, hg⟩
      · exact Or.inl h''
      · exact Or.inr ⟨m, memL m hm, hg⟩
    rw [chooseMarketsLoop] at h
    by_cases hcap : cfg.maxMarketsPerLoop ≤ acc.length
    · rw [if_pos hcap] at h
      exact Or.inl h
    rw [if_neg hcap] at h
    dsimp only at h
    by_cases hemp : batch.isEmpty = true
    · rw [if_pos hemp] at h
      exact Or.inl h
    rw [if_neg hemp] at h
    rcases hlast : batch.getLast? with _ | lastMarket
    · simp only [hlast] at h
      exact handlePB acc h
    simp only [hlast] at h
    rcases hct : lastMarket.createdTime with _ | ct
    · simp only [hct] at h
      exact handlePB acc h
    simp only [hct] at h
    rcases ih _ q h with h' | ⟨m, hm, hg⟩
    · exact handlePB acc h'
    · exact Or.inr ⟨m, memR m hm, hg⟩

theorem chooseMarketsLoop_length (cfg : Config) (bets : String → List Bet) :
    ∀ (pages : List (List MarketRec)) (acc : List MarketQuote),
      acc.length ≤ cfg.maxMarketsPerLoop →
      (chooseMarketsLoop cfg bets pages acc).length ≤
        cfg.maxMarketsPerLoop := by
  intro pages
  induction pages with
  | nil =>
    intro acc hacc
    rw [chooseMarketsLoop]
    by_cases hcap : cfg.maxMarketsPerLoop ≤ acc.length
    · rw [if_pos hcap]
      exact hacc
    · rw [if_neg hcap]
      exact hacc
  | cons batch restPages ih =>
    intro acc hacc
    rw [chooseMarketsLoop]
    by_cases hcap : cfg.maxMarketsPerLoop ≤ acc.length
    · rw [if_pos hcap]
      exact hacc
    rw [if_neg hcap]
    have hlt : acc.length < cfg.maxMarketsPerLoop := not_le.mp hcap
    dsimp only
    by_cases hemp : batch.isEmpty = true
    · rw [if_pos hemp]
      exact hacc
    rw [if_neg hemp]
    rcases hlast : batch.getLast? with _ | lastMarket
    · simp only [hlast]
      exact processBatch_length cfg bets batch acc hlt
    simp only [hlast]
    rcases hct : lastMarket.createdTime with _ | ct
    · simp only [hct]
      exact processBatch_length cfg bets batch acc hlt
    simp only [hct]
    exact ih _ (processBatch_length cfg bets batch acc hlt)

theorem quoteKeyGE_trans : ∀ a b c : MarketQuote, quoteKeyGE a b = true →
    quoteKeyGE b c = true → quoteKeyGE a c = true := by
  intro a b c hab hbc
  simp only [quoteKeyGE, decide_eq_true_eq] at hab hbc ⊢
  rcases hab with h | ⟨h1, h2⟩ <;> rcases hbc with h' | ⟨h1', h2'⟩
  · exact Or.inl (lt_trans h' h)
  · exact Or.inl (h1' ▸ h)
  · exact Or.inl (by rw [h1]; exact h')
  · exact Or.inr ⟨h1.trans h1', le_trans h2' h2⟩

theorem quoteKeyGE_total : ∀ a b : MarketQuote,
    (quoteKeyGE a b || quoteKeyGE b a) = true := by
  intro a b
  simp only [quoteKeyGE, Bool.or_eq_true, decide_eq_true_eq]
  rcases lt_trichotomy (a.yes_ask - a.yes_bid) (b.yes_ask - b.yes_bid)
    with h | h | h
  · exact Or.inr (Or.inl h)
  · rcases le_total b.volume a.volume with hv | hv
    · exact Or.inl (Or.inr ⟨h, hv⟩)
    · exact Or.inr (Or.inr ⟨h.symm, hv⟩)
  · exact Or.inl (Or.inl h)

/-! ## C6 -/

/-- C6: `choose_markets` returns at most `MAX_MARKETS_PER_LOOP` candidates;
every returned candidate comes from a fetched market record that is
unresolved, unclosed, binary and has an identifier, whose extracted quote
satisfies `yes_ask > yes_bid` and `yes_ask − yes_bid ≥ MIN_SPREAD`; and the
returned list is sorted descending lexicographically by `(spread, volume)`,
widest spread first with ties broken by higher volume. -/
theorem choose_markets_spec (cfg : Config) (bets : String → List Bet)
    (pages : List (List MarketRec)) :
    (choose_markets cfg bets pages).length ≤ cfg.maxMarketsPerLoop ∧
    (∀ q ∈ choose_markets cfg bets pages, ∃ m ∈ pages.flatten,
      goodCandidate cfg bets m q) ∧
    List.Pairwise (fun a b =>
      b.yes_ask - b.yes_bid < a.yes_ask - a.yes_bid ∨
        (a.yes_ask - a.yes_bid = b.yes_ask - b.yes_bid ∧
          b.volume ≤ a.volume)) (choose_markets cfg bets pages) := by
  refine ⟨?_, ?_, ?_⟩
  · rw [choose_markets, List.length_mergeSort]
    exact chooseMarketsLoop_length cfg bets pages [] (Nat.zero_le _)
  · intro q hq
    rw [choose_markets, List.mem_mergeSort] at hq
    rcases chooseMarketsLoop_mem cfg bets pages [] q hq with h | h
    · simp at h
    · exact h
  · have hs := List.sorted_mergeSort quoteKeyGE_trans quoteKeyGE_total
      (chooseMarketsLoop cfg bets pages [])
    rw [choose_markets]
    refine hs.imp ?_
    intro a b hab
    simpa only [quoteKeyGE, decide_eq_true_eq] using hab

/-- C6 witness: the scenario-B market record survives the scan and its quote
inherits all candidate conditions. -/
theorem choose_markets_spec_witness :
    ∃ m ∈ [[(⟨false, false, "BINARY", "m1", "q", 0, some 5⟩ :
        MarketRec)]].flatten,
      goodCandidate defaultConfig
        (fun _ => [⟨false, false, some "YES", some (.num (2/5))⟩,
                   ⟨false, false, some "NO", some (.num (1/2))⟩])
        m ⟨"m1", "q", 2/5, 1/2, 0⟩ :=
  (choose_markets_spec defaultConfig
      (fun _ => [⟨false, false, some "YES", some (.num (2/5))⟩,
                 ⟨false, false, some "NO", some (.num (1/2))⟩])
      [[⟨false, false, "BINARY", "m1", "q", 0, some 5⟩]]).2.1
    ⟨"m1", "q", 2/5, 1/2, 0⟩ (by with_unfolding_all decide)
